import Mathlib

/-!
Shallow embedding of the statistical evaluation core of the
grit-benchmark repository
(`4.applications/grit-informed-aggregation/1.generate-profiles/scripts/eval_utils.py`),
and proofs of the spec's claims about it.

Modelling conventions:
* A float value is `Val := Option ℚ`: `none` models IEEE NaN, `some q` a
  (finite, exactly representable) numeric value.  All arithmetic the source
  performs on data values (percentile/median/mean) is linear, so exact
  rationals model it faithfully.
* IEEE comparisons with NaN are false, hence `vgt`/`vlt` return `false`
  whenever either side is `none`, exactly as numpy elementwise `>`/`<`.
* `np.nanpercentile` / `np.nanmedian` drop NaN entries, sort ascending, and
  either linearly interpolate (percentile) or average the middle entries
  (median); `denan`, `sortQ`, `nanpercentile`, `nanmedian` model them.
* `np.corrcoef` (Pearson correlation of row vectors) involves square roots,
  which are not rational; every claim below is structural in the produced
  correlation matrix, so `corrcoef` is passed as an explicit external
  function `List (List ℚ) → List (List Val)` (the external numpy
  capability), never fixed by the embedding.
* Python's `random.choices` draws are passed in as an explicit list of
  draws (the stream of outcomes of the process-wide random source); the
  rejection-sampling `while` loops become structural recursion over that
  stream (`rsLoop`), returning `none` when the stream is exhausted before
  `n_samples` values are collected (modelling a loop that is still
  running).
* A `pandas.DataFrame` at the call boundary is `DFrame R`: a row index
  (`List ℤ`, as produced by `reset_index` and arbitrary before it) plus the
  list of rows.  `..._st` variants of the four core functions return the
  dataframe state after the call, capturing the
  `df.reset_index(drop=True, inplace=True)` mutation the two samplers
  perform on their argument.
* `pandas.groupby` iterates groups in ascending key order and keeps rows of
  a group in original row order; `repKeys`/`pairKeys`/`commonKeys` plus
  `List.filter` model this (`lexLe` is the lexicographic order pandas uses
  for a two-column key).
-/

set_option maxRecDepth 16000

/-- A numpy float value: `none` is NaN. -/
abbrev Val := Option ℚ

/-- Drop the NaN entries of a list of values (what the `nan*` reducers do
first). -/
def denan (l : List Val) : List ℚ := l.filterMap id

/-- Ascending sort of rationals (numpy sorts ascending before
percentile/median). -/
def sortQ (l : List ℚ) : List ℚ := l.insertionSort (· ≤ ·)

/-- Linear interpolation of a sorted list at virtual index `i`, as numpy's
default `linear` percentile method: `s[⌊i⌋] + (i − ⌊i⌋)·(s[⌊i⌋+1] − s[⌊i⌋])`,
clamped to the last element when `⌊i⌋ + 1` falls outside the list. -/
def interp (s : List ℚ) (i : ℚ) : ℚ :=
  let lo := (⌊i⌋).toNat
  if lo + 1 < s.length then
    s.getD lo 0 + (i - (lo : ℚ)) * (s.getD (lo + 1) 0 - s.getD lo 0)
  else
    s.getD (s.length - 1) 0

/-- Model of `np.nanpercentile(l, p)` (default linear interpolation): drop
NaNs, sort ascending, interpolate at virtual index `p/100 · (n−1)`; NaN when
no numeric entry remains. -/
def nanpercentile (l : List Val) (p : ℚ) : Val :=
  let s := sortQ (denan l)
  if s.length = 0 then none
  else some (interp s (p / 100 * ((s.length : ℚ) - 1)))

/-- Model of `np.nanmedian`: drop NaNs, sort, take the middle entry (odd
length) or the mean of the two middle entries (even length); NaN when no
numeric entry remains. -/
def nanmedian (l : List Val) : Val :=
  let s := sortQ (denan l)
  let n := s.length
  if n = 0 then none
  else if n % 2 = 1 then some (s.getD (n / 2) 0)
  else some ((s.getD (n / 2 - 1) 0 + s.getD (n / 2) 0) / 2)

/-- `np.nanmedian` of a 2-d array: the median over all its entries. -/
def nanmedianM (m : List (List Val)) : Val := nanmedian m.flatten

/-- Model of `np.fill_diagonal(m, np.nan)`: entries at position `(i, i)`
become NaN. -/
def fillDiagNaN (m : List (List Val)) : List (List Val) :=
  m.enum.map fun ir => ir.2.enum.map fun jx => if ir.1 = jx.1 then none else jx.2

/-- Elementwise `>` against a (possibly NaN) threshold; any comparison with
NaN is false, as in IEEE/numpy. -/
def vgt (x t : Val) : Bool :=
  match x, t with
  | some a, some b => b < a
  | _, _ => false

/-- Elementwise `<` against a (possibly NaN) threshold; any comparison with
NaN is false. -/
def vlt (x t : Val) : Bool :=
  match x, t with
  | some a, some b => a < b
  | _, _ => false

/-- Model of `np.mean` of a boolean array cast to float: the fraction of
`true` entries; NaN on the empty array (numpy's 0/0 with a warning). -/
def meanB (l : List Bool) : Val :=
  if l.length = 0 then none
  else some ((l.countP id : ℚ) / (l.length : ℚ))

/-- Float addition: NaN-propagating. -/
def vadd (a b : Val) : Val :=
  match a, b with
  | some x, some y => some (x + y)
  | _, _ => none

/-- The tuple shapes `percent_score` can return: `(fraction, threshold)` for
the one-sided modes, `(fraction, perc_95, perc_5)` for `both`. -/
inductive PSResult where
  | single : Val → Val → PSResult
  | double : Val → Val → Val → PSResult
deriving DecidableEq, Repr

/-- Model of `percent_score(null_dist, corr_dist, how)` from `eval_utils.py`:
three `if` branches for `right` / `left` / `both`, and the implicit Python
`return None` when none of them matches. -/
def percent_score (null_dist corr_dist : List Val) (how : String) :
    Option PSResult :=
  if how = "right" then
    let perc_95 := nanpercentile null_dist 95
    some (.single (meanB (corr_dist.map fun x => vgt x perc_95)) perc_95)
  else if how = "left" then
    let perc_5 := nanpercentile null_dist 5
    some (.single (meanB (corr_dist.map fun x => vlt x perc_5)) perc_5)
  else if how = "both" then
    let perc_95 := nanpercentile null_dist 95
    let perc_5 := nanpercentile null_dist 5
    some (.double
      (vadd (meanB (corr_dist.map fun x => vgt x perc_95))
            (meanB (corr_dist.map fun x => vlt x perc_5)))
      perc_95 perc_5)
  else none

/-- A row of the dataframe as `corr_between_replicates` /
`corr_between_non_replicates` see it: the grouping column's value
(`group_by_feature` resp. `metadata_compound_name`) and the feature vector
(the columns `infer_cp_features` classifies as features). -/
structure KRow (K : Type) where
  key : K
  features : List ℚ
deriving DecidableEq

/-- A row of the dataframe as the perturbation-pair functions see it: the
`metadata_common` value, the `metadata_perturbation` value, and the feature
vector (the row's entry in the `profiles` column). -/
structure PRow (K : Type) where
  common : K
  pert : K
  profile : List ℚ
deriving DecidableEq

/-- One row of `replicate_grouped`: a `(metadata_common,
metadata_perturbation)` group together with the list of its member
profiles. -/
structure PGroup (K : Type) where
  common : K
  pert : K
  profiles : List (List ℚ)
deriving DecidableEq

/-- Lexicographic order on two-column keys, the order `pandas.groupby`
sorts a two-column key by. -/
def lexLe [LinearOrder K] (a b : K × K) : Prop :=
  a.1 < b.1 ∨ a.1 = b.1 ∧ a.2 ≤ b.2

instance instDecLexLe [LinearOrder K] : DecidableRel (lexLe (K := K)) :=
  fun a b => inferInstanceAs (Decidable (a.1 < b.1 ∨ a.1 = b.1 ∧ a.2 ≤ b.2))

/-- The distinct values of the grouping column, in ascending order: the
group keys `df.groupby(group_by_feature)` iterates over. -/
def repKeys [LinearOrder K] (rows : List (KRow K)) : List K :=
  ((rows.map (·.key)).dedup).insertionSort (· ≤ ·)

/-- Model of `corr_between_replicates(df, group_by_feature)`: group rows by
the grouping column; per group take the feature matrix, compute its
correlation matrix, and record NaN for a single-row group, otherwise the
NaN-median after the diagonal is filled with NaN; one `(key, correlation)`
row appended per group. -/
def corr_between_replicates [LinearOrder K]
    (corrcoef : List (List ℚ) → List (List Val)) (rows : List (KRow K)) :
    List (K × Val) :=
  (repKeys rows).map fun k =>
    let group := rows.filter fun r => decide (r.key = k)
    let group_features := group.map (·.features)
    let corr := corrcoef group_features
    if group_features.length = 1 then (k, none)
    else (k, nanmedianM (fillDiagNaN corr))

/-- The rejection-sampling `while len(null_corr) < n_samples` loop shared by
`corr_between_non_replicates` and `corr_between_perturbation_non_pairs`:
consume the stream of random draws, appending `value d` for each accepted
draw `d`, until `n_samples` values are collected (`none` if the stream runs
out first, i.e. the Python loop is still spinning). -/
def rsLoop (n_samples : ℕ) (accept : D → Bool) (value : D → Val) :
    List D → List Val → Option (List Val)
  | [], acc => if n_samples ≤ acc.length then some acc else none
  | d :: rest, acc =>
    if n_samples ≤ acc.length then some acc
    else if accept d then rsLoop n_samples accept value rest (acc ++ [value d])
    else rsLoop n_samples accept value rest acc

/-- Acceptance test of `corr_between_non_replicates`: the drawn rows carry
exactly `n_replicates` distinct values in the compound-name column
(`len(sample[metadata_compound_name].unique()) == n_replicates`). -/
def nrAccept [DecidableEq K] (rows : List (KRow K)) (n_replicates : ℕ)
    (d : List (Fin rows.length)) : Bool :=
  decide (((d.map fun i => (rows.get i).key).dedup).length = n_replicates)

/-- Value appended by `corr_between_non_replicates` for an accepted draw:
NaN-median of the drawn rows' correlation matrix with NaN diagonal. -/
def nrValue (corrcoef : List (List ℚ) → List (List Val))
    (rows : List (KRow K)) (d : List (Fin rows.length)) : Val :=
  nanmedianM (fillDiagNaN (corrcoef (d.map fun i => (rows.get i).features)))

/-- Model of `corr_between_non_replicates(df, n_samples, n_replicates,
metadata_compound_name)`: rejection-sample lists of `n_replicates` row
positions (the outcomes of `random.choices`, supplied as `draws`). -/
def corr_between_non_replicates [DecidableEq K]
    (corrcoef : List (List ℚ) → List (List Val)) (rows : List (KRow K))
    (n_samples n_replicates : ℕ) (draws : List (List (Fin rows.length))) :
    Option (List Val) :=
  rsLoop n_samples (nrAccept rows n_replicates) (nrValue corrcoef rows) draws []

/-- The distinct `(metadata_common, metadata_perturbation)` pairs of the
dataset in ascending (lexicographic) order: the keys of
`profile_df.groupby([metadata_common, metadata_perturbation])`. -/
def pairKeys [LinearOrder K] (rows : List (PRow K)) : List (K × K) :=
  ((rows.map fun r => (r.common, r.pert)).dedup).insertionSort lexLe

/-- Model of `replicate_grouped`: one row per distinct `(common, pert)` key
(ascending), carrying the list of that group's profiles in row order. -/
def groupbyPairs [LinearOrder K] (rows : List (PRow K)) : List (PGroup K) :=
  (pairKeys rows).map fun k =>
    ⟨k.1, k.2,
     (rows.filter fun r => decide (r.common = k.1 ∧ r.pert = k.2)).map (·.profile)⟩

/-- The distinct `metadata_common` values of `replicate_grouped` in
ascending order: the keys of `replicate_grouped.groupby([metadata_common])`. -/
def commonKeys [LinearOrder K] (gs : List (PGroup K)) : List K :=
  ((gs.map (·.common)).dedup).insertionSort (· ≤ ·)

/-- Model of `common_grouped`: one row per distinct `metadata_common` value
(ascending), carrying the list of its perturbations' profile lists, in
`replicate_grouped` order. -/
def groupbyCommon [LinearOrder K] (gs : List (PGroup K)) :
    List (K × List (List (List ℚ))) :=
  (commonKeys gs).map fun c =>
    (c, (gs.filter fun g => decide (g.common = c)).map (·.profiles))

/-- The cross-correlation block median of `corr_between_perturbation_pairs`:
correlate the concatenation of the two profile lists, slice rows
`0 : len(ps1)` and columns `len(ps1) :`, take the NaN-median. -/
def pairCross (corrcoef : List (List ℚ) → List (List Val))
    (ps1 ps2 : List (List ℚ)) : Val :=
  let corr := corrcoef (ps1 ++ ps2)
  nanmedianM ((corr.take ps1.length).map (·.drop ps1.length))

/-- Model of `corr_between_perturbation_pairs(df, metadata_common,
metadata_perturbation)`: for every `common` group of two or more
perturbations, append the cross-block median of its first two perturbations'
profile lists; groups with a single perturbation contribute nothing. -/
def corr_between_perturbation_pairs [LinearOrder K]
    (corrcoef : List (List ℚ) → List (List Val)) (rows : List (PRow K)) :
    List Val :=
  (groupbyCommon (groupbyPairs rows)).filterMap fun g =>
    if 1 < g.2.length then
      some (pairCross corrcoef (g.2.getD 0 []) (g.2.getD 1 []))
    else none

/-- Acceptance test of `corr_between_perturbation_non_pairs`: the two drawn
groups' `metadata_common` values differ. -/
def npAccept (gs : List (PGroup K)) [DecidableEq K]
    (d : Fin gs.length × Fin gs.length) : Bool :=
  decide ((gs.get d.1).common ≠ (gs.get d.2).common)

/-- Value appended by `corr_between_perturbation_non_pairs` for an accepted
draw, exactly as the source computes it: correlate the concatenation of the
two drawn groups' profile lists, then slice with
`len(replicate_grouped.iloc[0].profiles)` — the profile count of the FIRST
ROW OF THE GROUPED TABLE (`iloc[0]`), not of the first drawn group — and
take the NaN-median. -/
def npValue (corrcoef : List (List ℚ) → List (List Val))
    (gs : List (PGroup K)) (d : Fin gs.length × Fin gs.length) : Val :=
  let ps1 := (gs.get d.1).profiles
  let ps2 := (gs.get d.2).profiles
  let L0 := (gs.map fun g => g.profiles.length).headD 0
  let corr := corrcoef (ps1 ++ ps2)
  nanmedianM ((corr.take L0).map (·.drop L0))

/-- The value §4.5/§4.6 of the spec prescribe for an accepted draw of the
null pair sampler (stated here for comparison with `npValue`): the
cross-correlation block between the two drawn groups' profile lists, i.e.
rows covering the first DRAWN group's profiles and columns the second's. -/
def npValueSpec (corrcoef : List (List ℚ) → List (List Val))
    (gs : List (PGroup K)) (d : Fin gs.length × Fin gs.length) : Val :=
  pairCross corrcoef (gs.get d.1).profiles (gs.get d.2).profiles

/-- Model of `corr_between_perturbation_non_pairs(df, n_samples,
metadata_common, metadata_perturbation)`: build `replicate_grouped`, then
rejection-sample pairs of its row positions (the outcomes of
`random.choices`, supplied as `draws`). -/
def corr_between_perturbation_non_pairs [LinearOrder K]
    (corrcoef : List (List ℚ) → List (List Val)) (rows : List (PRow K))
    (n_samples : ℕ)
    (draws : List (Fin (groupbyPairs rows).length × Fin (groupbyPairs rows).length)) :
    Option (List Val) :=
  rsLoop n_samples (npAccept (groupbyPairs rows)) (npValue corrcoef (groupbyPairs rows))
    draws []

/-- A dataframe at the call boundary: its row index plus its rows. -/
structure DFrame (R : Type) where
  index : List ℤ
  rows : List R
deriving DecidableEq

/-- Model of `df.reset_index(drop=True, inplace=True)`: the row index
becomes `0, 1, …, n−1`; the rows are untouched. -/
def reset_index (df : DFrame R) : DFrame R :=
  ⟨(List.range df.rows.length).map Int.ofNat, df.rows⟩

/-- `corr_between_replicates` with the state of the caller's dataframe after
the call (the function only reads `df`). -/
def corr_between_replicates_st [LinearOrder K]
    (corrcoef : List (List ℚ) → List (List Val)) (df : DFrame (KRow K)) :
    List (K × Val) × DFrame (KRow K) :=
  (corr_between_replicates corrcoef df.rows, df)

/-- `corr_between_non_replicates` with the state of the caller's dataframe
after the call: the source's `df.reset_index(drop=True, inplace=True)`
mutates the argument. -/
def corr_between_non_replicates_st [LinearOrder K]
    (corrcoef : List (List ℚ) → List (List Val)) (df : DFrame (KRow K))
    (n_samples n_replicates : ℕ) (draws : List (List (Fin df.rows.length))) :
    Option (List Val) × DFrame (KRow K) :=
  (corr_between_non_replicates corrcoef df.rows n_samples n_replicates draws,
   reset_index df)

/-- `corr_between_perturbation_pairs` with the state of the caller's
dataframe after the call (the function only reads `df`). -/
def corr_between_perturbation_pairs_st [LinearOrder K]
    (corrcoef : List (List ℚ) → List (List Val)) (df : DFrame (PRow K)) :
    List Val × DFrame (PRow K) :=
  (corr_between_perturbation_pairs corrcoef df.rows, df)

/-- `corr_between_perturbation_non_pairs` with the state of the caller's
dataframe after the call: the source's `df.reset_index(drop=True,
inplace=True)` mutates the argument. -/
def corr_between_perturbation_non_pairs_st [LinearOrder K]
    (corrcoef : List (List ℚ) → List (List Val)) (df : DFrame (PRow K))
    (n_samples : ℕ)
    (draws : List (Fin (groupbyPairs df.rows).length × Fin (groupbyPairs df.rows).length)) :
    Option (List Val) × DFrame (PRow K) :=
  (corr_between_perturbation_non_pairs corrcoef df.rows n_samples draws,
   reset_index df)

/-- The spec's wording of the `right`-mode threshold (§4.2): the 95th
percentile of the null distribution, by linear interpolation between the
closest ranks of the ascending order: with rank `r = p/100·(n−1)`, the value
`(1−w)·s[⌊r⌋] + w·s[min(⌊r⌋+1, n−1)]` where `w = r − ⌊r⌋`. -/
def percentileSpec (l : List ℚ) (p : ℚ) : ℚ :=
  let s := sortQ l
  let n := s.length
  let r := p / 100 * ((n : ℚ) - 1)
  let lo := (⌊r⌋).toNat
  let w := r - (lo : ℚ)
  (1 - w) * s.getD lo 0 + w * s.getD (min (lo + 1) (n - 1)) 0

/-- The spec's wording of the `right`-mode score: the fraction of the
observed distribution strictly greater than the threshold (a NaN entry is
not greater than anything). -/
def fracGT (corr : List Val) (t : ℚ) : ℚ :=
  ((corr.countP fun x => vgt x (some t)) : ℚ) / (corr.length : ℚ)

lemma rsLoop_length_eq {D : Type} (n : ℕ) (accept : D → Bool) (value : D → Val) :
    ∀ (ds : List D) (acc out : List Val), acc.length ≤ n →
      rsLoop n accept value ds acc = some out → out.length = n := by
  intro ds
  induction ds with
  | nil =>
    intro acc out hle h
    by_cases hc : n ≤ acc.length
    · simp only [rsLoop, if_pos hc] at h
      cases h
      omega
    · simp only [rsLoop, if_neg hc] at h
      exact absurd h (by simp)
  | cons d rest ih =>
    intro acc out hle h
    by_cases hc : n ≤ acc.length
    · simp only [rsLoop, if_pos hc] at h
      cases h
      omega
    · simp only [rsLoop, if_neg hc] at h
      by_cases ha : accept d = true
      · rw [if_pos ha] at h
        exact ih _ _ (by simp; omega) h
      · rw [if_neg ha] at h
        exact ih _ _ (by omega) h

lemma rsLoop_mem_src {D : Type} (n : ℕ) (accept : D → Bool) (value : D → Val) :
    ∀ (ds : List D) (acc out : List Val),
      rsLoop n accept value ds acc = some out →
      ∀ v ∈ out, v ∈ acc ∨ ∃ d ∈ ds, accept d = true ∧ v = value d := by
  intro ds
  induction ds with
  | nil =>
    intro acc out h v hv
    by_cases hc : n ≤ acc.length
    · simp only [rsLoop, if_pos hc] at h
      cases h
      exact Or.inl hv
    · simp only [rsLoop, if_neg hc] at h
      exact absurd h (by simp)
  | cons d rest ih =>
    intro acc out h v hv
    by_cases hc : n ≤ acc.length
    · simp only [rsLoop, if_pos hc] at h
      cases h
      exact Or.inl hv
    · simp only [rsLoop, if_neg hc] at h
      by_cases ha : accept d = true
      · rw [if_pos ha] at h
        rcases ih _ _ h v hv with hacc | ⟨d', hd', hacc', hval⟩
        · rcases List.mem_append.mp hacc with h1 | h2
          · exact Or.inl h1
          · exact Or.inr ⟨d, List.mem_cons_self _ _, ha, by simpa using h2⟩
        · exact Or.inr ⟨d', List.mem_cons_of_mem _ hd', hacc', hval⟩
      · rw [if_neg ha] at h
        rcases ih _ _ h v hv with hacc | ⟨d', hd', hacc', hval⟩
        · exact Or.inl hacc
        · exact Or.inr ⟨d', List.mem_cons_of_mem _ hd', hacc', hval⟩

/-- A trivial stand-in for the external `np.corrcoef` capability, used in
concrete witness runs whose claims do not depend on the matrix contents. -/
def ccNone : List (List ℚ) → List (List Val) := fun _ => []

/-- Concrete two-row dataset for sampler witnesses: two rows in different
compound groups. -/
def wrowsNR : List (KRow ℕ) := [⟨0, []⟩, ⟨1, []⟩]

/-- Two draws, each picking both rows of `wrowsNR`. -/
def wdrawsNR : List (List (Fin wrowsNR.length)) :=
  [[⟨0, by decide⟩, ⟨1, by decide⟩], [⟨0, by decide⟩, ⟨1, by decide⟩]]

/-- Claim C4: every value `corr_between_non_replicates` emits comes from a
draw of `n_replicates` row indices whose drawn rows carry exactly
`n_replicates` distinct values in the group column; a draw whose rows
collapse to fewer distinct values is never emitted. -/
theorem null_replicate_sampler_acceptance {K : Type} [DecidableEq K]
    (corrcoef : List (List ℚ) → List (List Val)) (rows : List (KRow K))
    (n_samples n_replicates : ℕ) (draws : List (List (Fin rows.length)))
    (out : List Val)
    (hdraws : ∀ d ∈ draws, d.length = n_replicates)
    (h : corr_between_non_replicates corrcoef rows n_samples n_replicates draws
          = some out) :
    ∀ v ∈ out, ∃ d ∈ draws, d.length = n_replicates ∧
      ((d.map fun i => (rows.get i).key).dedup).length = n_replicates ∧
      v = nrValue corrcoef rows d := by
  intro v hv
  rcases rsLoop_mem_src _ _ _ draws [] out h v hv with hacc | ⟨d, hd, hacc, hval⟩
  · simp at hacc
  · exact ⟨d, hd, hdraws d hd, by simpa [nrAccept] using hacc, hval⟩

theorem null_replicate_sampler_acceptance_witness :
    ∃ d ∈ wdrawsNR, d.length = 2 ∧
      ((d.map fun i => (wrowsNR.get i).key).dedup).length = 2 ∧
      (none : Val) = nrValue ccNone wrowsNR d :=
  null_replicate_sampler_acceptance ccNone wrowsNR 2 2 wdrawsNR [none, none]
    (by decide) (by decide) none (by decide)

/-- Concrete dataset for the null-pair witness: two perturbations under two
different common labels. -/
def wrowsNP : List (PRow ℕ) := [⟨0, 0, []⟩, ⟨1, 0, []⟩]

/-- One draw picking the two groups of `groupbyPairs wrowsNP`. -/
def wdrawsNP :
    List (Fin (groupbyPairs wrowsNP).length × Fin (groupbyPairs wrowsNP).length) :=
  [(⟨0, by decide⟩, ⟨1, by decide⟩)]

/-- Claim C5: every value `corr_between_perturbation_non_pairs` emits comes
from a draw of two `(common, pert)` groups whose common values differ; a
pair of groups sharing the same common value is never emitted. -/
theorem null_pair_sampler_acceptance {K : Type} [LinearOrder K]
    (corrcoef : List (List ℚ) → List (List Val)) (rows : List (PRow K))
    (n_samples : ℕ)
    (draws : List (Fin (groupbyPairs rows).length × Fin (groupbyPairs rows).length))
    (out : List Val)
    (h : corr_between_perturbation_non_pairs corrcoef rows n_samples draws
          = some out) :
    ∀ v ∈ out, ∃ d ∈ draws,
      ((groupbyPairs rows).get d.1).common ≠ ((groupbyPairs rows).get d.2).common ∧
      v = npValue corrcoef (groupbyPairs rows) d := by
  intro v hv
  rcases rsLoop_mem_src _ _ _ draws [] out h v hv with hacc | ⟨d, hd, hacc, hval⟩
  · simp at hacc
  · exact ⟨d, hd, by simpa [npAccept] using hacc, hval⟩

theorem null_pair_sampler_acceptance_witness :
    ∃ d ∈ wdrawsNP,
      ((groupbyPairs wrowsNP).get d.1).common ≠ ((groupbyPairs wrowsNP).get d.2).common ∧
      (none : Val) = npValue ccNone (groupbyPairs wrowsNP) d :=
  null_pair_sampler_acceptance ccNone wrowsNP 1 wdrawsNP [none]
    (by decide) none (by decide)

/-- Claim C6: whenever `corr_between_non_replicates` or
`corr_between_perturbation_non_pairs` returns, the returned list has length
exactly `n_samples` — never fewer and never more. -/
theorem samplers_return_exactly_n_samples {K : Type} [LinearOrder K] :
    (∀ (corrcoef : List (List ℚ) → List (List Val)) (rows : List (KRow K))
        (n_samples n_replicates : ℕ) (draws : List (List (Fin rows.length)))
        (out : List Val),
        corr_between_non_replicates corrcoef rows n_samples n_replicates draws
          = some out →
        out.length = n_samples) ∧
    (∀ (corrcoef : List (List ℚ) → List (List Val)) (rows : List (PRow K))
        (n_samples : ℕ)
        (draws : List (Fin (groupbyPairs rows).length × Fin (groupbyPairs rows).length))
        (out : List Val),
        corr_between_perturbation_non_pairs corrcoef rows n_samples draws
          = some out →
        out.length = n_samples) :=
  ⟨fun _ _ ns _ draws out h => rsLoop_length_eq ns _ _ draws [] out (by simp) h,
   fun _ _ ns draws out h => rsLoop_length_eq ns _ _ draws [] out (by simp) h⟩

theorem samplers_return_exactly_n_samples_witness :
    ([none, none] : List Val).length = 2 ∧ ([none] : List Val).length = 1 :=
  ⟨(samplers_return_exactly_n_samples (K := ℕ)).1 ccNone wrowsNR 2 2 wdrawsNR
      [none, none] (by decide),
   (samplers_return_exactly_n_samples (K := ℕ)).2 ccNone wrowsNP 1 wdrawsNP
      [none] (by decide)⟩

/-- Claim C9: for every mode string other than `left`, `right` and `both`,
`percent_score` silently returns nothing (Python `None`): no error, no
`(fraction, threshold)` result. -/
theorem percent_score_invalid_mode_none (null_dist corr_dist : List Val)
    (how : String) (h1 : how ≠ "right") (h2 : how ≠ "left") (h3 : how ≠ "both") :
    percent_score null_dist corr_dist how = none := by
  simp [percent_score, h1, h2, h3]

theorem percent_score_invalid_mode_none_witness :
    percent_score [] [] "middle" = none :=
  percent_score_invalid_mode_none [] [] "middle" (by decide) (by decide) (by decide)

/-- A one-row dataframe whose row index is `[5]` (not `[0]`). -/
def wdf : DFrame (KRow ℕ) := ⟨[5], [⟨0, []⟩]⟩

/-- Claim C2 counterexample: `corr_between_non_replicates` does NOT leave
its input dataframe unchanged — `df.reset_index(drop=True, inplace=True)`
rewrites the caller's row index, here from `[5]` to `[0]`. -/
theorem corr_non_replicates_mutates_index :
    (corr_between_non_replicates_st ccNone wdf 0 0 []).2 ≠ wdf := by decide

/-- Claim C2 (amended): `corr_between_replicates` and
`corr_between_perturbation_pairs` leave the caller's dataframe unchanged;
`corr_between_non_replicates` and `corr_between_perturbation_non_pairs`
preserve the rows (contents and order) but mutate the caller's row index in
place, resetting it to `0, 1, …, n−1`. -/
theorem core_frame_effects {K : Type} [LinearOrder K] :
    (∀ (corrcoef : List (List ℚ) → List (List Val)) (df : DFrame (KRow K)),
        (corr_between_replicates_st corrcoef df).2 = df) ∧
    (∀ (corrcoef : List (List ℚ) → List (List Val)) (df : DFrame (PRow K)),
        (corr_between_perturbation_pairs_st corrcoef df).2 = df) ∧
    (∀ (corrcoef : List (List ℚ) → List (List Val)) (df : DFrame (KRow K))
        (n_samples n_replicates : ℕ) (draws : List (List (Fin df.rows.length))),
        (corr_between_non_replicates_st corrcoef df n_samples n_replicates draws).2.rows
            = df.rows ∧
        (corr_between_non_replicates_st corrcoef df n_samples n_replicates draws).2.index
            = (List.range df.rows.length).map Int.ofNat) ∧
    (∀ (corrcoef : List (List ℚ) → List (List Val)) (df : DFrame (PRow K))
        (n_samples : ℕ)
        (draws : List (Fin (groupbyPairs df.rows).length × Fin (groupbyPairs df.rows).length)),
        (corr_between_perturbation_non_pairs_st corrcoef df n_samples draws).2.rows
            = df.rows ∧
        (corr_between_perturbation_non_pairs_st corrcoef df n_samples draws).2.index
            = (List.range df.rows.length).map Int.ofNat) :=
  ⟨fun _ _ => rfl, fun _ _ => rfl,
   fun _ _ _ _ _ => ⟨rfl, rfl⟩, fun _ _ _ _ => ⟨rfl, rfl⟩⟩

/-- One-row dataset for the single-row replicate-group witness. -/
def wrowsR : List (KRow ℕ) := [⟨0, []⟩]

/-- Claim C7: a replicate group with exactly one row is assigned correlation
NaN, and the group still appears in the result paired with its key value. -/
theorem replicate_corr_singleton_nan {K : Type} [LinearOrder K]
    (corrcoef : List (List ℚ) → List (List Val)) (rows : List (KRow K)) (k : K)
    (h : (rows.filter fun r => decide (r.key = k)).length = 1) :
    (k, (none : Val)) ∈ corr_between_replicates corrcoef rows := by
  have hex : ∃ r ∈ rows, r.key = k := by
    rcases List.length_eq_one.mp h with ⟨r, hr⟩
    have hmem : r ∈ rows.filter fun r => decide (r.key = k) := by
      rw [hr]; exact List.mem_singleton_self r
    exact ⟨r, (List.mem_filter.mp hmem).1, by simpa using (List.mem_filter.mp hmem).2⟩
  have hk : k ∈ repKeys rows := by
    rcases hex with ⟨r, hr, hrk⟩
    unfold repKeys
    exact (List.perm_insertionSort _ _).mem_iff.mpr
      (List.mem_dedup.mpr (List.mem_map.mpr ⟨r, hr, hrk⟩))
  unfold corr_between_replicates
  exact List.mem_map.mpr ⟨k, hk, by simp [h]⟩

theorem replicate_corr_singleton_nan_witness :
    ((0 : ℕ), (none : Val)) ∈ corr_between_replicates ccNone wrowsR :=
  replicate_corr_singleton_nan ccNone wrowsR 0 (by decide)

/-- A stand-in for the external `np.corrcoef` capability that tags every
matrix entry with its position (`entry (i, j) = 10·i + j`), so that slices
of the matrix can be told apart. -/
def ccIdx (ps : List (List ℚ)) : List (List Val) :=
  (List.range ps.length).map fun i =>
    (List.range ps.length).map fun j => some ((10 * i + j : ℕ) : ℚ)

/-- Dataset whose grouped table has a FIRST group of three profiles while
the drawn pair of groups has sizes one and three: `groupbyPairs` yields the
groups `(0,0)` (3 profiles), `(1,0)` (1 profile), `(2,0)` (3 profiles). -/
def c1rows : List (PRow ℕ) :=
  [⟨0, 0, []⟩, ⟨0, 0, []⟩, ⟨0, 0, []⟩, ⟨1, 0, []⟩, ⟨2, 0, []⟩, ⟨2, 0, []⟩, ⟨2, 0, []⟩]

/-- A single draw picking groups `(1,0)` and `(2,0)` — an accepted non-pair. -/
def c1draws :
    List (Fin (groupbyPairs c1rows).length × Fin (groupbyPairs c1rows).length) :=
  [(⟨1, by decide⟩, ⟨2, by decide⟩)]

/-- Claim C1 (code-bug evidence): on the accepted draw of groups `(1,0)`
(one profile) and `(2,0)` (three profiles), `corr_between_perturbation_non_pairs`
appends the median of the slice `corr[0:3, 3:]` cut with
`len(replicate_grouped.iloc[0].profiles) = 3` — the profile count of the
grouped table's FIRST row, not of the first drawn group — yielding
`median [3, 13, 23] = 13`, whereas the §4.5-style cross-block between the
two drawn groups' profile lists is `corr[0:1, 1:]` with
`median [1, 2, 3] = 2`.  The emitted value is not the cross-block median the
claim describes. -/
theorem corr_nonpairs_slice_uses_first_table_group :
    corr_between_perturbation_non_pairs ccIdx c1rows 1 c1draws
        = some [npValue ccIdx (groupbyPairs c1rows) (⟨1, by decide⟩, ⟨2, by decide⟩)] ∧
    npValue ccIdx (groupbyPairs c1rows) (⟨1, by decide⟩, ⟨2, by decide⟩) = some 13 ∧
    npValueSpec ccIdx (groupbyPairs c1rows) (⟨1, by decide⟩, ⟨2, by decide⟩) = some 2 ∧
    npValue ccIdx (groupbyPairs c1rows) (⟨1, by decide⟩, ⟨2, by decide⟩)
        ≠ npValueSpec ccIdx (groupbyPairs c1rows) (⟨1, by decide⟩, ⟨2, by decide⟩) := by
  refine ⟨by decide, by decide, by decide, by decide⟩

lemma interp_eq_rank (s : List ℚ) (r : ℚ) (h1 : 0 ≤ r)
    (h3 : r < (s.length : ℚ) - 1 ∨ r = 0) :
    interp s r
      = (1 - (r - (((⌊r⌋).toNat : ℕ) : ℚ))) * s.getD ((⌊r⌋).toNat) 0
        + (r - (((⌊r⌋).toNat : ℕ) : ℚ))
          * s.getD (min ((⌊r⌋).toNat + 1) (s.length - 1)) 0 := by
  rcases h3 with hlt | hr0
  · have hfl : (0 : ℤ) ≤ ⌊r⌋ := Int.floor_nonneg.mpr h1
    have hlo_lt : (⌊r⌋).toNat + 1 < s.length := by
      have hq : ((⌊r⌋ : ℤ) : ℚ) < (s.length : ℚ) - 1 := lt_of_le_of_lt (Int.floor_le r) hlt
      have hz : (⌊r⌋ : ℤ) < (s.length : ℤ) - 1 := by exact_mod_cast hq
      omega
    simp only [interp]
    rw [if_pos hlo_lt, min_eq_left (by omega)]
    ring
  · subst hr0
    simp only [interp, Int.floor_zero, Int.toNat_zero]
    by_cases h01 : 0 + 1 < s.length
    · rw [if_pos h01, min_eq_left (by omega)]
      norm_num
    · rw [if_neg h01]
      have hl0 : s.length - 1 = 0 := by omega
      rw [hl0]
      norm_num

lemma nanpercentile95_eq_spec (null_dist : List Val) (h : denan null_dist ≠ []) :
    nanpercentile null_dist 95 = some (percentileSpec (denan null_dist) 95) := by
  have hn : (sortQ (denan null_dist)).length ≠ 0 := by
    rw [sortQ, (List.perm_insertionSort _ _).length_eq]
    exact fun h0 => h (List.length_eq_zero.mp h0)
  have hnq : (1 : ℚ) ≤ ((sortQ (denan null_dist)).length : ℚ) := by
    exact_mod_cast Nat.one_le_iff_ne_zero.mpr hn
  simp only [nanpercentile, percentileSpec]
  rw [if_neg hn]
  congr 1
  apply interp_eq_rank
  · nlinarith
  · rcases eq_or_lt_of_le hnq with heq | hlt
    · right
      rw [← heq]
      norm_num
    · left
      nlinarith

lemma meanB_map_eq_frac (corr : List Val) (p : Val → Bool) (h : corr ≠ []) :
    meanB (corr.map p) = some (((corr.countP p : ℕ) : ℚ) / (corr.length : ℚ)) := by
  unfold meanB
  rw [List.length_map, List.countP_map,
    if_neg (fun h0 => h (List.length_eq_zero.mp h0))]
  simp [Function.id_comp]

/-- Claim C3: in `right` mode, `percent_score` returns the pair `(f, t)`
where `t` is the 95th percentile of the non-NaN entries of the null
distribution (linear interpolation between closest ranks) and `f` is the
fraction of the observed distribution strictly greater than `t`; in
particular, for `null_dist = [1..100]` and `corr_dist = [96, 97, 98]` the
returned fraction is `1.0` (threshold `95.05`). -/
theorem percent_score_right_matches_spec :
    (∀ (null_dist corr_dist : List Val), denan null_dist ≠ [] → corr_dist ≠ [] →
        percent_score null_dist corr_dist "right"
          = some (.single
              (some (fracGT corr_dist (percentileSpec (denan null_dist) 95)))
              (some (percentileSpec (denan null_dist) 95)))) ∧
    percent_score ((List.range 100).map fun k => some ((k : ℚ) + 1))
        [some 96, some 97, some 98] "right"
      = some (.single (some 1) (some (9505 / 100))) := by
  constructor
  · intro null_dist corr_dist h1 h2
    have hunfold : percent_score null_dist corr_dist "right"
        = some (.single
            (meanB (corr_dist.map fun x => vgt x (nanpercentile null_dist 95)))
            (nanpercentile null_dist 95)) := rfl
    rw [hunfold, nanpercentile95_eq_spec null_dist h1,
      meanB_map_eq_frac corr_dist _ h2]
    rfl
  · have ht : nanpercentile ((List.range 100).map fun k => some ((k : ℚ) + 1)) 95
        = some (9505 / 100) := by
      norm_num [nanpercentile, denan, sortQ, interp, List.insertionSort,
        List.orderedInsert, List.range_succ]
      simp [List.getD]
      norm_num []
    have hunfold : percent_score ((List.range 100).map fun k => some ((k : ℚ) + 1))
        [some 96, some 97, some 98] "right"
        = some (.single
            (meanB ([some 96, some 97, some 98].map fun x =>
              vgt x (nanpercentile ((List.range 100).map fun k => some ((k : ℚ) + 1)) 95)))
            (nanpercentile ((List.range 100).map fun k => some ((k : ℚ) + 1)) 95)) := rfl
    rw [hunfold, ht]
    norm_num [vgt, meanB, List.countP_cons, List.countP_nil]

theorem percent_score_right_matches_spec_witness :
    percent_score [some 1, some 2, some 3] [some 5] "right"
      = some (.single
          (some (fracGT [some 5] (percentileSpec (denan [some 1, some 2, some 3]) 95)))
          (some (percentileSpec (denan [some 1, some 2, some 3]) 95))) :=
  percent_score_right_matches_spec.1 [some 1, some 2, some 3] [some 5]
    (by decide) (by decide)

lemma sorted_getD_mono {s : List ℚ} (hs : List.Sorted (· ≤ ·) s) {a b : ℕ}
    (hab : a ≤ b) (hb : b < s.length) : s.getD a 0 ≤ s.getD b 0 := by
  have ha : a < s.length := Nat.lt_of_le_of_lt hab hb
  rw [List.getD_eq_getElem s 0 ha, List.getD_eq_getElem s 0 hb]
  rcases Nat.eq_or_lt_of_le hab with heq | hlt
  · subst heq
    exact le_refl _
  · have h2 := hs.rel_get_of_lt
      (Fin.mk_lt_mk.mpr hlt : (⟨a, ha⟩ : Fin s.length) < ⟨b, hb⟩)
    simpa [List.get_eq_getElem] using h2

lemma interp_mono {s : List ℚ} (hs : List.Sorted (· ≤ ·) s) {i j : ℚ}
    (h0 : 0 ≤ i) (hij : i ≤ j) (hj : j ≤ (s.length : ℚ) - 1) :
    interp s i ≤ interp s j := by
  have h0j : 0 ≤ j := le_trans h0 hij
  have hfa : (0 : ℤ) ≤ ⌊i⌋ := Int.floor_nonneg.mpr h0
  have hfb : (0 : ℤ) ≤ ⌊j⌋ := Int.floor_nonneg.mpr h0j
  have haq : ((⌊i⌋.toNat : ℕ) : ℚ) ≤ i := by
    have h := Int.floor_le i
    rw [← Int.toNat_of_nonneg hfa] at h
    exact_mod_cast h
  have haq1 : i < ((⌊i⌋.toNat : ℕ) : ℚ) + 1 := by
    have h := Int.lt_floor_add_one i
    rw [← Int.toNat_of_nonneg hfa] at h
    exact_mod_cast h
  have hbq : ((⌊j⌋.toNat : ℕ) : ℚ) ≤ j := by
    have h := Int.floor_le j
    rw [← Int.toNat_of_nonneg hfb] at h
    exact_mod_cast h
  have hab : ⌊i⌋.toNat ≤ ⌊j⌋.toNat := Int.toNat_le_toNat (Int.floor_mono hij)
  have hlen : 1 ≤ s.length := by
    by_contra hc
    push_neg at hc
    have h00 : s.length = 0 := by omega
    rw [h00] at hj
    norm_num at hj
    linarith
  have hbn : ⌊j⌋.toNat + 1 ≤ s.length := by
    have h2 : ((⌊j⌋.toNat : ℕ) : ℚ) + 1 ≤ (s.length : ℚ) := by
      have := le_trans hbq hj
      linarith
    exact_mod_cast h2
  simp only [interp]
  by_cases hb1 : ⌊j⌋.toNat + 1 < s.length
  · by_cases ha1 : ⌊i⌋.toNat + 1 < s.length
    · rw [if_pos ha1, if_pos hb1]
      rcases Nat.eq_or_lt_of_le hab with heq | hlt
      · rw [heq]
        rw [heq] at haq haq1
        have hd : 0 ≤ s.getD (⌊j⌋.toNat + 1) 0 - s.getD (⌊j⌋.toNat) 0 :=
          sub_nonneg.mpr (sorted_getD_mono hs (Nat.le_succ _) hb1)
        nlinarith [mul_nonneg (by linarith : (0 : ℚ) ≤ j - i) hd]
      · have hda : 0 ≤ s.getD (⌊i⌋.toNat + 1) 0 - s.getD (⌊i⌋.toNat) 0 :=
          sub_nonneg.mpr (sorted_getD_mono hs (Nat.le_succ _) ha1)
        have hdb : 0 ≤ s.getD (⌊j⌋.toNat + 1) 0 - s.getD (⌊j⌋.toNat) 0 :=
          sub_nonneg.mpr (sorted_getD_mono hs (Nat.le_succ _) hb1)
        have hmid : s.getD (⌊i⌋.toNat + 1) 0 ≤ s.getD (⌊j⌋.toNat) 0 :=
          sorted_getD_mono hs (by omega) (by omega)
        nlinarith [mul_nonneg (by linarith : (0 : ℚ) ≤ 1 - (i - ((⌊i⌋.toNat : ℕ) : ℚ))) hda,
          mul_nonneg (by linarith : (0 : ℚ) ≤ j - ((⌊j⌋.toNat : ℕ) : ℚ)) hdb]
    · exact absurd hb1 (by omega)
  · rw [if_neg hb1]
    by_cases ha1 : ⌊i⌋.toNat + 1 < s.length
    · rw [if_pos ha1]
      have hda : 0 ≤ s.getD (⌊i⌋.toNat + 1) 0 - s.getD (⌊i⌋.toNat) 0 :=
        sub_nonneg.mpr (sorted_getD_mono hs (Nat.le_succ _) ha1)
      have hlast : s.getD (⌊i⌋.toNat + 1) 0 ≤ s.getD (s.length - 1) 0 :=
        sorted_getD_mono hs (by omega) (by omega)
      nlinarith [mul_nonneg (by linarith : (0 : ℚ) ≤ 1 - (i - ((⌊i⌋.toNat : ℕ) : ℚ))) hda]
    · rw [if_neg ha1]

lemma countP_disjoint_le_length {α : Type} (l : List α) (p q : α → Bool)
    (h : ∀ x ∈ l, ¬(p x = true ∧ q x = true)) :
    l.countP p + l.countP q ≤ l.length := by
  induction l with
  | nil => simp
  | cons x xs ih =>
    have hx := h x (List.mem_cons_self _ _)
    have ihh := ih fun y hy => h y (List.mem_cons_of_mem _ hy)
    rw [List.countP_cons, List.countP_cons, List.length_cons]
    by_cases hp : p x = true
    · have hq : ¬q x = true := fun hq => hx ⟨hp, hq⟩
      simp [hp, hq]
      omega
    · by_cases hq : q x = true
      · simp [hp, hq]
        omega
      · simp [hp, hq]
        omega

/-- Claim C10: in `both` mode (with a non-degenerate null distribution and a
nonempty observed distribution) the returned fraction is at most 1: the 5th
NaN-aware percentile of the null distribution never exceeds its 95th, so no
observed element is counted on both sides. -/
theorem percent_score_both_fraction_le_one (null_dist corr_dist : List Val)
    (h1 : denan null_dist ≠ []) (h2 : corr_dist ≠ []) :
    ∃ f t95 t5, percent_score null_dist corr_dist "both"
        = some (.double (some f) (some t95) (some t5)) ∧ t5 ≤ t95 ∧ f ≤ 1 := by
  have hn : (sortQ (denan null_dist)).length ≠ 0 := by
    rw [sortQ, (List.perm_insertionSort _ _).length_eq]
    exact fun h0 => h1 (List.length_eq_zero.mp h0)
  have hnq : (1 : ℚ) ≤ ((sortQ (denan null_dist)).length : ℚ) := by
    exact_mod_cast Nat.one_le_iff_ne_zero.mpr hn
  have hsort : List.Sorted (· ≤ ·) (sortQ (denan null_dist)) := by
    rw [sortQ]
    exact List.sorted_insertionSort _ _
  set s := sortQ (denan null_dist) with hsdef
  set t95 := interp s (95 / 100 * ((s.length : ℚ) - 1)) with ht95def
  set t5 := interp s (5 / 100 * ((s.length : ℚ) - 1)) with ht5def
  have h95 : nanpercentile null_dist 95 = some t95 := by
    rw [ht95def, hsdef]
    simp only [nanpercentile]
    rw [if_neg hn]
  have h5 : nanpercentile null_dist 5 = some t5 := by
    rw [ht5def, hsdef]
    simp only [nanpercentile]
    rw [if_neg hn]
  have hmono : t5 ≤ t95 := by
    rw [ht95def, ht5def]
    apply interp_mono hsort
    · nlinarith
    · nlinarith
    · nlinarith
  have hunfold : percent_score null_dist corr_dist "both"
      = some (.double
          (vadd (meanB (corr_dist.map fun x => vgt x (nanpercentile null_dist 95)))
                (meanB (corr_dist.map fun x => vlt x (nanpercentile null_dist 5))))
          (nanpercentile null_dist 95) (nanpercentile null_dist 5)) := rfl
  have hlenpos : (0 : ℚ) < (corr_dist.length : ℚ) := by
    have h0 : corr_dist.length ≠ 0 := fun h0 => h2 (List.length_eq_zero.mp h0)
    exact_mod_cast Nat.pos_of_ne_zero h0
  refine ⟨((corr_dist.countP fun x => vgt x (some t95) : ℕ) : ℚ) / (corr_dist.length : ℚ)
      + ((corr_dist.countP fun x => vlt x (some t5) : ℕ) : ℚ) / (corr_dist.length : ℚ),
    t95, t5, ?_, hmono, ?_⟩
  · rw [hunfold, h95, h5, meanB_map_eq_frac corr_dist _ h2,
      meanB_map_eq_frac corr_dist _ h2]
    rfl
  · rw [div_add_div_same, div_le_one hlenpos]
    have hdisj : ∀ x ∈ corr_dist,
        ¬((fun x => vgt x (some t95)) x = true ∧
          (fun x => vlt x (some t5)) x = true) := by
      intro x _ hboth
      rcases hboth with ⟨hg, hl⟩
      cases x with
      | none => simp [vgt] at hg
      | some q =>
        simp only [vgt, decide_eq_true_eq] at hg
        simp only [vlt, decide_eq_true_eq] at hl
        linarith
    exact_mod_cast countP_disjoint_le_length corr_dist _ _ hdisj

theorem percent_score_both_fraction_le_one_witness :
    ∃ f t95 t5, percent_score [some 1] [some 2] "both"
        = some (.double (some f) (some t95) (some t5)) ∧ t5 ≤ t95 ∧ f ≤ 1 :=
  percent_score_both_fraction_le_one [some 1] [some 2] (by decide) (by decide)

lemma length_filterMap_ite {α β : Type} (l : List α) (p : α → Prop)
    [DecidablePred p] (f : α → β) :
    (l.filterMap fun a => if p a then some (f a) else none).length
      = l.countP fun a => decide (p a) := by
  induction l with
  | nil => simp
  | cons x xs ih =>
    by_cases hx : p x
    · simp [List.filterMap_cons, hx, List.countP_cons, ih]
    · simp [List.filterMap_cons, hx, List.countP_cons, ih]

lemma dedup_filter_fst_length {K : Type} [DecidableEq K] (P : List (K × K)) (c : K) :
    (P.dedup.filter fun k => decide (k.1 = c)).length
      = ((P.filter fun k => decide (k.1 = c)).map (·.2)).dedup.length := by
  have hA : (P.dedup.filter fun k => decide (k.1 = c)).Nodup :=
    (List.nodup_dedup P).filter _
  have hmapA : ((P.dedup.filter fun k => decide (k.1 = c)).map (·.2)).Nodup := by
    apply List.Nodup.map_on ?_ hA
    intro x hx y hy hxy
    have hx1 : x.1 = c := by simpa using (List.mem_filter.mp hx).2
    have hy1 : y.1 = c := by simpa using (List.mem_filter.mp hy).2
    exact Prod.ext (hx1.trans hy1.symm) hxy
  have hperm : ((P.dedup.filter fun k => decide (k.1 = c)).map (·.2)).Perm
      (((P.filter fun k => decide (k.1 = c)).map (·.2)).dedup) := by
    apply (List.perm_ext_iff_of_nodup hmapA (List.nodup_dedup _)).mpr
    intro q
    simp only [List.mem_map, List.mem_filter, List.mem_dedup, decide_eq_true_eq]
  calc (P.dedup.filter fun k => decide (k.1 = c)).length
      = ((P.dedup.filter fun k => decide (k.1 = c)).map (·.2)).length :=
        (List.length_map _ _).symm
    _ = _ := hperm.length_eq

lemma groupbyPairs_filter_common_length {K : Type} [LinearOrder K]
    (rows : List (PRow K)) (c : K) :
    ((groupbyPairs rows).filter fun g => decide (g.common = c)).length
      = ((rows.filter fun r => decide (r.common = c)).map (·.pert)).dedup.length := by
  unfold groupbyPairs pairKeys
  rw [List.filter_map, List.length_map,
    ((List.perm_insertionSort _ _).filter _).length_eq]
  have hpred : ((fun g => decide (PGroup.common g = c)) ∘ fun k =>
      (⟨k.1, k.2, (rows.filter fun r =>
        decide (r.common = k.1 ∧ r.pert = k.2)).map (·.profile)⟩ : PGroup K))
      = fun k : K × K => decide (k.1 = c) := rfl
  rw [hpred, dedup_filter_fst_length]
  have hPfil : ((rows.map fun r => (r.common, r.pert)).filter
        fun k => decide (k.1 = c))
      = (rows.filter fun r => decide (r.common = c)).map fun r => (r.common, r.pert) := by
    rw [List.filter_map]
    rfl
  rw [hPfil, List.map_map]
  rfl

lemma groupbyPairs_commons_dedup_perm {K : Type} [LinearOrder K]
    (rows : List (PRow K)) :
    (((groupbyPairs rows).map (·.common)).dedup).Perm ((rows.map (·.common)).dedup) := by
  apply (List.perm_ext_iff_of_nodup (List.nodup_dedup _) (List.nodup_dedup _)).mpr
  intro c
  rw [List.mem_dedup, List.mem_dedup]
  unfold groupbyPairs pairKeys
  rw [List.map_map]
  constructor
  · intro hc
    rcases List.mem_map.mp hc with ⟨k, hk, hval⟩
    have hk' : k ∈ (rows.map fun r => (r.common, r.pert)).dedup :=
      (List.perm_insertionSort _ _).mem_iff.mp hk
    rcases List.mem_map.mp (List.mem_dedup.mp hk') with ⟨r, hr, hrk⟩
    apply List.mem_map.mpr
    refine ⟨r, hr, ?_⟩
    rw [← hval, ← hrk]
    rfl
  · intro hc
    rcases List.mem_map.mp hc with ⟨r, hr, hrc⟩
    apply List.mem_map.mpr
    refine ⟨(r.common, r.pert), ?_, hrc⟩
    exact (List.perm_insertionSort _ _).mem_iff.mpr
      (List.mem_dedup.mpr (List.mem_map.mpr ⟨r, hr, rfl⟩))

/-- Claim C8: `corr_between_perturbation_pairs` produces no entry for a
common group with exactly one perturbation: the length of the returned list
is the number of distinct common values carrying two or more distinct
perturbation values. -/
theorem pair_corr_counts_multi_pert_groups {K : Type} [LinearOrder K]
    (corrcoef : List (List ℚ) → List (List Val)) (rows : List (PRow K)) :
    (corr_between_perturbation_pairs corrcoef rows).length
      = ((rows.map (·.common)).dedup).countP fun c =>
          decide (2 ≤ ((rows.filter fun r => decide (r.common = c)).map
            (·.pert)).dedup.length) := by
  unfold corr_between_perturbation_pairs
  rw [length_filterMap_ite]
  unfold groupbyCommon
  rw [List.countP_map]
  unfold commonKeys
  rw [(List.perm_insertionSort _ _).countP_eq,
    (groupbyPairs_commons_dedup_perm rows).countP_eq]
  apply List.countP_congr
  intro c _
  have hcomp : ((fun g : K × List (List (List ℚ)) => decide (1 < g.2.length)) ∘
      fun c => (c, ((groupbyPairs rows).filter fun g =>
        decide (g.common = c)).map (·.profiles))) c
      = decide (1 < (((groupbyPairs rows).filter fun g =>
          decide (g.common = c)).map (·.profiles)).length) := rfl
  rw [hcomp, List.length_map, groupbyPairs_filter_common_length rows c]
  constructor
  · intro h
    simp only [decide_eq_true_eq] at h ⊢
    omega
  · intro h
    simp only [decide_eq_true_eq] at h ⊢
    omega
